import Mathlib

/-!
Verification of the durable key-value storage core (WAL + replay + table)
of the `sd-keyvalue-store` repository.

The Go source consists of:
* `WAL.appendRecord` — encodes a record `(op, key, val)` as
  `[1-byte op][4-byte LE keyLen][4-byte LE valLen][key][val][4-byte LE crc32]`
  where the CRC covers header, key and value, and appends it to the log file;
* `WAL.Replay` — scans the log from the start, decoding one record per
  iteration, applying each valid record, and stopping (without error) at the
  first short read, out-of-bounds length, or checksum mismatch;
* `KV.Set` / `KV.Del` — append a record first and only on success mutate the
  in-memory map; `OpenKV` rebuilds the map by replaying the log.

The embedding below models a byte as a `Nat` (the byte-validity side
condition `< 256` is carried as a hypothesis where a theorem needs it), a
file as a `List Nat`, and the in-memory Go map as an association list whose
update operations are deterministic, so that "the same map" can be stated as
plain equality.
-/

/-! ### CRC32 (IEEE), as Go's `hash/crc32` computes it

Go's `crc32.NewIEEE` / `Write` / `Sum32` implement the reflected CRC-32 with
polynomial `0xEDB88320`: the running state starts at `0xFFFFFFFF`, each input
byte is XORed into the low bits and followed by eight conditional-shift
steps, and `Sum32` complements the final state.  (Go keeps the complement
inside `Update` — the state is complemented on entry and on exit of every
`Write` — which telescopes to the single initial/final complement used
here, so successive `Write` calls hash the concatenation of their inputs.) -/

def crcPoly : Nat := 0xEDB88320

def crcStep (c : Nat) : Nat := if c % 2 = 1 then (c / 2) ^^^ crcPoly else c / 2

def crcByte (c b : Nat) : Nat := crcStep^[8] (c ^^^ b)

def crcUpdate (c : Nat) (l : List Nat) : Nat := l.foldl crcByte c

def crc32 (l : List Nat) : Nat := crcUpdate 0xFFFFFFFF l ^^^ 0xFFFFFFFF

/-! ### The record codec

`appendRecord` produces exactly the bytes that `WAL.appendRecord` writes to
the buffered writer for one record.  `putUint32` is
`binary.LittleEndian.PutUint32` (byte `i` is `byte(v >> 8*i)`), and
`leUint32` is `binary.LittleEndian.Uint32`, which reassembles the base-256
little-endian value of four bytes (Go ORs the four shifted bytes, which on
bytes `< 256` occupy disjoint bit ranges, so the OR is this weighted sum). -/

def putUint32 (n : Nat) : List Nat :=
  [n % 256, n >>> 8 % 256, n >>> 16 % 256, n >>> 24 % 256]

def leUint32 (b0 b1 b2 b3 : Nat) : Nat :=
  b0 + 256 * b1 + 65536 * b2 + 16777216 * b3

def opSet : Nat := 1

def opDel : Nat := 2

def appendRecord (op : Nat) (key val : List Nat) : List Nat :=
  let header : List Nat := [op] ++ putUint32 key.length ++ putUint32 val.length
  let sum : Nat :=
    crcUpdate (crcUpdate (crcUpdate 0xFFFFFFFF header) key)
      (if 0 < val.length then val else []) ^^^ 0xFFFFFFFF
  header ++ key ++ (if 0 < val.length then val else []) ++ putUint32 sum

/-- Bytes appended by `WAL.AppendSET`. -/
def AppendSET (key val : List Nat) : List Nat := appendRecord opSet key val

/-- Bytes appended by `WAL.AppendDEL` (Go passes `nil` for the value). -/
def AppendDEL (key : List Nat) : List Nat := appendRecord opDel key []

/-- Sanity limits from `WAL.Replay` (`1 << 20`). -/
def maxKey : Nat := 1 <<< 20

/-- Sanity limit for values from `WAL.Replay` (`64 << 20`). -/
def maxVal : Nat := 64 <<< 20

/-- Outcome of one iteration of the `WAL.Replay` loop: a clean end of stream
(the 9-byte header cannot be fully read — `io.EOF`/`io.ErrUnexpectedEOF`), a
corrupt/torn record (out-of-bounds length, short key/value/crc read, or
checksum mismatch — the code `return nil`s in all these cases), or a decoded
record together with the unconsumed remainder of the stream. -/
inductive DecodeResult where
  | eof : DecodeResult
  | corrupt : DecodeResult
  | ok (op : Nat) (key val rest : List Nat) : DecodeResult
deriving DecidableEq

/-- One iteration of the `WAL.Replay` loop (source lines 129–178): read the
9-byte header, check the length sanity bounds, read `keyLen` key bytes,
`valLen` value bytes (a zero-length read always succeeds, matching the
`valLen > 0` guard) and the 4 checksum bytes, then recompute the CRC over
header‖key‖value and compare it with the stored one. -/
def decodeRecord : List Nat → DecodeResult
  | op :: a0 :: a1 :: a2 :: a3 :: b0 :: b1 :: b2 :: b3 :: rest =>
    let keyLen := leUint32 a0 a1 a2 a3
    let valLen := leUint32 b0 b1 b2 b3
    if keyLen = 0 ∨ keyLen > maxKey ∨ valLen > maxVal then .corrupt
    else if keyLen ≤ rest.length then
      let key := rest.take keyLen
      let rest1 := rest.drop keyLen
      if valLen ≤ rest1.length then
        let val := rest1.take valLen
        match rest1.drop valLen with
        | c0 :: c1 :: c2 :: c3 :: rest3 =>
          let wantCRC := leUint32 c0 c1 c2 c3
          let gotCRC := crc32 ([op, a0, a1, a2, a3, b0, b1, b2, b3] ++ key ++ val)
          if gotCRC = wantCRC then .ok op key val rest3 else .corrupt
        | _ => .corrupt
      else .corrupt
    else .corrupt
  | _ => .eof

theorem decode_ok_length {s : List Nat} {op : Nat} {key val rest : List Nat}
    (h : decodeRecord s = .ok op key val rest) : rest.length < s.length := by
  unfold decodeRecord at h
  split at h
  case h_2 => exact absurd h (by simp)
  case h_1 op' a0 a1 a2 a3 b0 b1 b2 b3 tail =>
    dsimp only at h
    split at h
    · exact absurd h (by simp)
    · split at h
      · split at h
        · split at h
          · rename_i c0 c1 c2 c3 rest3 heq
            split at h
            · cases h
              have hlen := congrArg List.length heq
              simp only [List.length_drop, List.length_cons] at hlen
              have h1 := List.length_drop (leUint32 a0 a1 a2 a3) tail
              simp only [List.length_cons]
              omega
            · exact absurd h (by simp)
          · exact absurd h (by simp)
        · exact absurd h (by simp)
      · exact absurd h (by simp)

/-- The `WAL.Replay` loop, with an explicit iteration budget so that the
recursion is structural: each successfully decoded record consumes at least
13 bytes of the stream, so a budget of `length + 1` iterations (used by
`replayRecords` below) can never run out before the loop stops on its own. -/
def replayLoop : Nat → List Nat → List (Nat × List Nat × List Nat)
  | 0, _ => []
  | fuel + 1, s =>
    match decodeRecord s with
    | .ok op key val rest => (op, key, val) :: replayLoop fuel rest
    | .eof => []
    | .corrupt => []

/-- The record sequence that `WAL.Replay` decodes from a log and feeds, in
order, to its `apply` callback.  The Go loop stops (returning `nil`, i.e. no
error) at the first `eof`/`corrupt` outcome; a genuine I/O error cannot
arise when the "file" is a byte list, so the embedding has no error result. -/
def replayRecords (s : List Nat) : List (Nat × List Nat × List Nat) :=
  replayLoop (s.length + 1) s

theorem replayLoop_congr (fuel1 : Nat) :
    ∀ (fuel2 : Nat) (s : List Nat), s.length < fuel1 → s.length < fuel2 →
      replayLoop fuel1 s = replayLoop fuel2 s := by
  induction fuel1 with
  | zero => omega
  | succ f1 ih =>
    intro fuel2 s h1 h2
    cases fuel2 with
    | zero => omega
    | succ f2 =>
      simp only [replayLoop]
      cases hdec : decodeRecord s with
      | ok op key val rest =>
        have hlt := decode_ok_length hdec
        dsimp only
        rw [ih f2 rest (by omega) (by omega)]
      | eof => rfl
      | corrupt => rfl

theorem replayRecords_ok {s : List Nat} {op : Nat} {key val rest : List Nat}
    (h : decodeRecord s = .ok op key val rest) :
    replayRecords s = (op, key, val) :: replayRecords rest := by
  have hlt := decode_ok_length h
  unfold replayRecords
  conv_lhs => rw [replayLoop]
  rw [h]
  dsimp only
  rw [replayLoop_congr s.length (rest.length + 1) rest (by omega) (by omega)]

theorem replayRecords_eof {s : List Nat} (h : decodeRecord s = .eof) :
    replayRecords s = [] := by
  unfold replayRecords
  conv_lhs => rw [replayLoop]
  rw [h]

theorem replayRecords_corrupt {s : List Nat} (h : decodeRecord s = .corrupt) :
    replayRecords s = [] := by
  unfold replayRecords
  conv_lhs => rw [replayLoop]
  rw [h]

theorem replayRecords_nil : replayRecords [] = [] :=
  replayRecords_eof rfl

/-! ### The in-memory table and the store facade

The Go map `map[string][]byte` is modelled as an association list with
unique keys; `tset`/`tdel` are the map assignment and `delete` built-in.
Both sides of every "same table" claim are computed with these two
operations, so equality of the representations coincides with equality of
the maps. -/

/-- In-memory table: association list from key to value. -/
abbrev Table := List (List Nat × List Nat)

/-- Map assignment `mem[k] = v` (overwrite if present, else append). -/
def tset : Table → List Nat → List Nat → Table
  | [], k, v => [(k, v)]
  | (k', v') :: t, k, v => if k' = k then (k, v) :: t else (k', v') :: tset t k v

/-- Map removal `delete(mem, k)` (no-op if absent). -/
def tdel : Table → List Nat → Table
  | [], _ => []
  | (k', v') :: t, k => if k' = k then tdel t k else (k', v') :: tdel t k

/-- The `apply` callback that `OpenKV` passes to `WAL.Replay`: `opSet`
stores a copy of the value, `opDel` deletes the key, anything else is
ignored (the `switch` has no default case). -/
def applyEntry (t : Table) (op : Nat) (key val : List Nat) : Table :=
  if op = opSet then tset t key val
  else if op = opDel then tdel t key
  else t

/-- The table `OpenKV` has rebuilt after replaying `log`: every decoded
record is applied, in order, to the initially empty map. -/
def openKV (log : List Nat) : Table :=
  (replayRecords log).foldl (fun t r => applyEntry t r.1 r.2.1 r.2.2) []

/-- State of one `KV` store: the bytes of the on-disk log file and the
in-memory table, plus the configured `fsyncEvery` policy (0 or 1). -/
structure KVState where
  log : List Nat
  mem : Table
  fsyncEvery : Nat
deriving DecidableEq

/-- Fault selector for one `Set`/`Del` call.  `appendErr = some n` makes the
WAL append fail with an error after only the first `n` bytes of the record
reached the file (a failed `bufio` flush is a short write, so `n` is less
than the record length on any real failure; the theorems state this
hypothesis explicitly).  `syncErr` makes the `Sync` call fail; `Sync` only
runs — and hence can only fail — when `fsyncEvery = 1`, and a failed `fsync`
does not remove the already-flushed record bytes from the file. -/
def KV.Set (kv : KVState) (key val : List Nat)
    (appendErr : Option Nat) (syncErr : Bool) : KVState × Bool :=
  match appendErr with
  | some n => ({ kv with log := kv.log ++ (AppendSET key val).take n }, true)
  | none =>
    let kv1 : KVState := { kv with log := kv.log ++ AppendSET key val }
    if kv.fsyncEvery = 1 ∧ syncErr then (kv1, true)
    else ({ kv1 with mem := tset kv1.mem key val }, false)

/-- `KV.Del`, with the same fault selectors as `KV.Set`. -/
def KV.Del (kv : KVState) (key : List Nat)
    (appendErr : Option Nat) (syncErr : Bool) : KVState × Bool :=
  match appendErr with
  | some n => ({ kv with log := kv.log ++ (AppendDEL key).take n }, true)
  | none =>
    let kv1 : KVState := { kv with log := kv.log ++ AppendDEL key }
    if kv.fsyncEvery = 1 ∧ syncErr then (kv1, true)
    else ({ kv1 with mem := tdel kv1.mem key }, false)

/-- A logical store operation, as issued by the application. -/
inductive KVOp where
  | set (key val : List Nat) : KVOp
  | del (key : List Nat) : KVOp
deriving DecidableEq

/-- Run a sequence of fault-free (hence successful) `Set`/`Del` calls. -/
def runOps (kv : KVState) (ops : List KVOp) : KVState :=
  ops.foldl
    (fun s o =>
      match o with
      | .set k v => (KV.Set s k v none false).1
      | .del k => (KV.Del s k none false).1)
    kv

/-- The map obtained by applying the operations, in order, to a table —
`set` inserts/overwrites, `del` removes — with no log involved. -/
def applyOps (t : Table) (ops : List KVOp) : Table :=
  ops.foldl
    (fun t o =>
      match o with
      | .set k v => tset t k v
      | .del k => tdel t k)
    t

/-- A freshly opened store over an empty log file. -/
def freshKV (fsyncEvery : Nat) : KVState := ⟨[], [], fsyncEvery⟩

/-! ### Well-formedness of records and logs -/

/-- The record of one logical operation, before encoding. -/
structure RecSpec where
  op : Nat
  key : List Nat
  val : List Nat
deriving DecidableEq

/-- The bytes of a log holding exactly the given records, in order. -/
def recsBytes : List RecSpec → List Nat
  | [] => []
  | r :: rs => appendRecord r.op r.key r.val ++ recsBytes rs

/-- The decoded form of the given records. -/
def recsOf : List RecSpec → List (Nat × List Nat × List Nat)
  | [] => []
  | r :: rs => (r.op, r.key, r.val) :: recsOf rs

/-- A record whose fields are genuine bytes and whose lengths satisfy the
replayer's sanity bounds: this is what the write path emits for every key
of length 1..2^20 and value of length 0..64·2^20. -/
def validRec (r : RecSpec) : Prop :=
  r.op < 256 ∧ (∀ b ∈ r.key, b < 256) ∧ (∀ b ∈ r.val, b < 256) ∧
    1 ≤ r.key.length ∧ r.key.length ≤ maxKey ∧ r.val.length ≤ maxVal

instance (r : RecSpec) : Decidable (validRec r) := by
  unfold validRec
  infer_instance

/-- Every record of the list is valid. -/
def validRecs (rs : List RecSpec) : Prop := ∀ r ∈ rs, validRec r

instance (rs : List RecSpec) : Decidable (validRecs rs) := by
  unfold validRecs
  infer_instance

/-- The record a `KVOp` is logged as (`Set` → `SET`, `Del` → `DEL`). -/
def opRec : KVOp → RecSpec
  | .set k v => ⟨opSet, k, v⟩
  | .del k => ⟨opDel, k, []⟩

/-- An operation whose key/value are bytes within the size bounds. -/
def validOp (o : KVOp) : Prop := validRec (opRec o)

instance (o : KVOp) : Decidable (validOp o) := by
  unfold validOp
  infer_instance

/-- Every operation of the sequence is valid. -/
def validOps (ops : List KVOp) : Prop := ∀ o ∈ ops, validOp o

instance (ops : List KVOp) : Decidable (validOps ops) := by
  unfold validOps
  infer_instance

/-- Flip bit `j` of the byte at index `i` (out-of-range `i` leaves the list
unchanged only through `List.set`'s semantics; all uses have `i` in range). -/
def flipBit (l : List Nat) (i j : Nat) : List Nat :=
  l.set i (l.getD i 0 ^^^ 2 ^ j)

/-! ### Arithmetic helpers -/

theorem xor_mod_two (x y : Nat) : (x ^^^ y) % 2 = (x % 2) ^^^ (y % 2) := by
  have hx := Nat.testBit_xor x y 0
  simp only [Nat.testBit_zero] at hx
  rcases Nat.mod_two_eq_zero_or_one x with h1 | h1 <;>
    rcases Nat.mod_two_eq_zero_or_one y with h2 | h2 <;>
    simp [h1, h2] at hx ⊢ <;> omega

theorem xor_xor_xor (a b c d : Nat) :
    (a ^^^ b) ^^^ (c ^^^ d) = (a ^^^ c) ^^^ (b ^^^ d) := by
  rw [Nat.xor_assoc, ← Nat.xor_assoc b c d, Nat.xor_comm b c, Nat.xor_assoc c b d,
    ← Nat.xor_assoc]

theorem putUint32_eq (n : Nat) :
    putUint32 n = [n % 256, n / 256 % 256, n / 65536 % 256, n / 16777216 % 256] := by
  simp [putUint32, Nat.shiftRight_eq_div_pow]

theorem putUint32_bytes (n : Nat) : ∀ b ∈ putUint32 n, b < 256 := by
  rw [putUint32_eq]
  intro b hb
  simp at hb
  rcases hb with h | h | h | h <;> omega

theorem leUint32_putUint32 (n : Nat) :
    leUint32 (n % 256) (n >>> 8 % 256) (n >>> 16 % 256) (n >>> 24 % 256) = n % 4294967296 := by
  simp only [Nat.shiftRight_eq_div_pow, leUint32]
  norm_num
  omega

/-! ### CRC algebra: GF(2)-linearity of the step, hence single-bit-flip
sensitivity of the checksum -/

theorem crcStep_eq (c : Nat) : crcStep c = c / 2 ^^^ c % 2 * crcPoly := by
  unfold crcStep
  rcases Nat.mod_two_eq_zero_or_one c with h | h <;> simp [h]

theorem crcStep_xor (x y : Nat) : crcStep (x ^^^ y) = crcStep x ^^^ crcStep y := by
  rw [crcStep_eq, crcStep_eq, crcStep_eq, Nat.xor_div_two, xor_mod_two,
    xor_xor_xor (x / 2) (x % 2 * crcPoly) (y / 2) (y % 2 * crcPoly)]
  congr 1
  rcases Nat.mod_two_eq_zero_or_one x with h1 | h1 <;>
    rcases Nat.mod_two_eq_zero_or_one y with h2 | h2 <;> simp [h1, h2]

theorem crcStepN_xor (n x y : Nat) :
    crcStep^[n] (x ^^^ y) = crcStep^[n] x ^^^ crcStep^[n] y := by
  induction n generalizing x y with
  | zero => simp
  | succ n ih => simp [Function.iterate_succ_apply, crcStep_xor, ih]

theorem crcStep_lt (c : Nat) (h : c < 2 ^ 32) : crcStep c < 2 ^ 32 := by
  unfold crcStep
  split
  · exact Nat.xor_lt_two_pow (by omega) (by norm_num [crcPoly])
  · omega

theorem crcStep_ne_zero (c : Nat) (h : c < 2 ^ 32) (hc : c ≠ 0) : crcStep c ≠ 0 := by
  unfold crcStep
  split
  · intro habs
    have hdp : c / 2 = crcPoly := Nat.xor_eq_zero.mp habs
    have h31 : c / 2 < 2 ^ 31 := by omega
    rw [hdp] at h31
    norm_num [crcPoly] at h31
  · intro habs
    omega

theorem crcStepN_ne_zero (n c : Nat) (h : c < 2 ^ 32) (hc : c ≠ 0) : crcStep^[n] c ≠ 0 := by
  induction n generalizing c with
  | zero => simpa
  | succ n ih =>
    rw [Function.iterate_succ_apply]
    exact ih _ (crcStep_lt c h) (crcStep_ne_zero c h hc)

theorem crcStepN_lt (n c : Nat) (h : c < 2 ^ 32) : crcStep^[n] c < 2 ^ 32 := by
  induction n generalizing c with
  | zero => simpa
  | succ n ih =>
    rw [Function.iterate_succ_apply]
    exact ih _ (crcStep_lt c h)

theorem crcByte_xor_state (c d b : Nat) :
    crcByte (c ^^^ d) b = crcByte c b ^^^ crcStep^[8] d := by
  unfold crcByte
  rw [Nat.xor_comm c d, Nat.xor_assoc, ← crcStepN_xor, Nat.xor_comm]

theorem crcByte_xor_byte (c b e : Nat) :
    crcByte c (b ^^^ e) = crcByte c b ^^^ crcStep^[8] e := by
  unfold crcByte
  rw [← Nat.xor_assoc, crcStepN_xor]

theorem crcUpdate_xor_state (l : List Nat) (c d : Nat) :
    crcUpdate (c ^^^ d) l = crcUpdate c l ^^^ crcStep^[8 * l.length] d := by
  induction l generalizing c d with
  | nil => simp [crcUpdate]
  | cons b t ih =>
    simp only [crcUpdate, List.foldl_cons] at *
    rw [crcByte_xor_state, ih, ← Function.iterate_add_apply]
    have h8 : 8 * t.length + 8 = 8 * (b :: t).length := by
      simp [List.length_cons]
      ring
    rw [h8]

theorem crcByte_lt (c b : Nat) (hc : c < 2 ^ 32) (hb : b < 256) : crcByte c b < 2 ^ 32 := by
  unfold crcByte
  exact crcStepN_lt 8 _ (Nat.xor_lt_two_pow hc (by omega))

theorem crcUpdate_lt (l : List Nat) (c : Nat) (hc : c < 2 ^ 32) (hl : ∀ b ∈ l, b < 256) :
    crcUpdate c l < 2 ^ 32 := by
  induction l generalizing c with
  | nil => simpa [crcUpdate]
  | cons b t ih =>
    simp only [crcUpdate, List.foldl_cons]
    refine ih _ (crcByte_lt c b hc (hl b (List.mem_cons_self b t))) ?_
    intro x hx
    exact hl x (List.mem_cons_of_mem b hx)

theorem crc32_lt (l : List Nat) (hl : ∀ b ∈ l, b < 256) : crc32 l < 2 ^ 32 := by
  unfold crc32
  exact Nat.xor_lt_two_pow (crcUpdate_lt l _ (by norm_num) hl) (by norm_num)

theorem crcUpdate_append (c : Nat) (l₁ l₂ : List Nat) :
    crcUpdate c (l₁ ++ l₂) = crcUpdate (crcUpdate c l₁) l₂ :=
  List.foldl_append crcByte c l₁ l₂

theorem set_len_append (pre post : List Nat) (b x : Nat) :
    (pre ++ b :: post).set pre.length x = pre ++ x :: post := by
  induction pre with
  | nil => rfl
  | cons a t ih => simp [ih]

theorem crcUpdate_flip_ne (l : List Nat) (c i j : Nat) (hi : i < l.length) (hj : j < 32) :
    crcUpdate c (l.set i (l.getD i 0 ^^^ 2 ^ j)) ≠ crcUpdate c l := by
  set b := l.getD i 0 with hb
  have hlen : (l.take i).length = i := by
    rw [List.length_take]
    omega
  have hdecomp : l = l.take i ++ b :: l.drop (i + 1) := by
    conv_lhs => rw [← List.take_append_drop i l]
    congr 1
    rw [hb, List.getD_eq_getElem l 0 hi]
    exact List.drop_eq_getElem_cons hi
  have hset : l.set i (b ^^^ 2 ^ j) = l.take i ++ (b ^^^ 2 ^ j) :: l.drop (i + 1) := by
    conv_lhs => rw [hdecomp]
    have h := set_len_append (l.take i) (l.drop (i + 1)) b (b ^^^ 2 ^ j)
    rwa [hlen] at h
  rw [hset]
  conv_rhs => rw [hdecomp]
  intro habs
  rw [crcUpdate, crcUpdate, List.foldl_append, List.foldl_append, List.foldl_cons,
    List.foldl_cons, crcByte_xor_byte] at habs
  have h1 := crcUpdate_xor_state (l.drop (i + 1))
    (crcByte (List.foldl crcByte c (l.take i)) b) (crcStep^[8] (2 ^ j))
  rw [crcUpdate, crcUpdate] at h1
  rw [h1] at habs
  have hzero : crcStep^[8 * (l.drop (i + 1)).length] (crcStep^[8] (2 ^ j)) = 0 := by
    set X := List.foldl crcByte (crcByte (List.foldl crcByte c (l.take i)) b)
      (l.drop (i + 1)) with hX
    have h2 : X ^^^ (X ^^^ crcStep^[8 * (l.drop (i + 1)).length] (crcStep^[8] (2 ^ j)))
        = X ^^^ X := by
      rw [habs]
    rwa [← Nat.xor_assoc, Nat.xor_self, Nat.zero_xor] at h2
  rw [← Function.iterate_add_apply] at hzero
  exact crcStepN_ne_zero _ _ (Nat.pow_lt_pow_right (by norm_num) hj) (by positivity) hzero

theorem crc32_flip_ne (l : List Nat) (i j : Nat) (hi : i < l.length) (hj : j < 32) :
    crc32 (l.set i (l.getD i 0 ^^^ 2 ^ j)) ≠ crc32 l := by
  unfold crc32
  intro habs
  have h1 : crcUpdate 0xFFFFFFFF (l.set i (l.getD i 0 ^^^ 2 ^ j)) = crcUpdate 0xFFFFFFFF l := by
    have h2 := congrArg (· ^^^ 0xFFFFFFFF) habs
    simpa [Nat.xor_assoc] using h2
  exact crcUpdate_flip_ne l 0xFFFFFFFF i j hi hj h1

theorem maxKey_eq : maxKey = 1048576 := rfl

theorem maxVal_eq : maxVal = 67108864 := rfl

theorem ite_val_self (val : List Nat) : (if 0 < val.length then val else []) = val := by
  cases val <;> simp

theorem appendRecord_eq (op : Nat) (key val : List Nat) :
    appendRecord op key val
      = [op] ++ putUint32 key.length ++ putUint32 val.length ++ key ++ val
        ++ putUint32 (crc32 ([op] ++ putUint32 key.length ++ putUint32 val.length
            ++ key ++ val)) := by
  simp only [appendRecord, crc32, ite_val_self, List.append_assoc, crcUpdate_append]

theorem length_appendRecord (op : Nat) (key val : List Nat) :
    (appendRecord op key val).length = 13 + key.length + val.length := by
  rw [appendRecord_eq]
  simp [putUint32]
  omega

theorem leUint32_putUint32_eq (n : Nat) (h : n < 4294967296) :
    leUint32 (n % 256) (n / 256 % 256) (n / 65536 % 256) (n / 16777216 % 256) = n := by
  unfold leUint32
  omega

theorem decode_encode (op : Nat) (key val tail : List Nat)
    (hop : op < 256) (hkb : ∀ b ∈ key, b < 256) (hvb : ∀ b ∈ val, b < 256)
    (hk1 : 1 ≤ key.length) (hk2 : key.length ≤ maxKey) (hv2 : val.length ≤ maxVal) :
    decodeRecord (appendRecord op key val ++ tail) = .ok op key val tail := by
  have hkl : key.length < 4294967296 := by rw [maxKey_eq] at hk2; omega
  have hvl : val.length < 4294967296 := by rw [maxVal_eq] at hv2; omega
  have hdata : ∀ b ∈ [op] ++ putUint32 key.length ++ putUint32 val.length ++ key ++ val,
      b < 256 := by
    intro b hb
    simp only [List.append_assoc, List.mem_append, List.mem_singleton] at hb
    rcases hb with h | h | h | h | h
    · omega
    · exact putUint32_bytes _ b h
    · exact putUint32_bytes _ b h
    · exact hkb b h
    · exact hvb b h
  have hcrc := crc32_lt _ hdata
  rw [appendRecord_eq, putUint32_eq key.length, putUint32_eq val.length,
    putUint32_eq (crc32 _)]
  simp only [List.append_assoc, List.cons_append, List.nil_append]
  rw [decodeRecord]
  rw [leUint32_putUint32_eq key.length hkl, leUint32_putUint32_eq val.length hvl]
  rw [if_neg (by push_neg; omega)]
  rw [if_pos (by simp)]
  rw [List.take_left, List.drop_left]
  rw [if_pos (by simp)]
  rw [List.take_left, List.drop_left]
  dsimp only
  simp only [List.cons_append, List.nil_append, List.append_assoc, putUint32_eq] at hcrc ⊢
  rw [leUint32_putUint32_eq (crc32 _) hcrc]
  rw [if_pos rfl]


theorem decode_short_eof (s : List Nat) (h : s.length < 9) : decodeRecord s = .eof := by
  rcases s with _ | ⟨a0, _ | ⟨a1, _ | ⟨a2, _ | ⟨a3, _ | ⟨a4, _ | ⟨a5, _ | ⟨a6, _ | ⟨a7, _ | ⟨a8, t⟩⟩⟩⟩⟩⟩⟩⟩⟩ <;>
    first | rfl | (simp only [List.length_cons] at h; omega)

theorem decode_ok_anatomy {op0 a0 a1 a2 a3 b0 b1 b2 b3 : Nat} {tail : List Nat}
    {op : Nat} {key val rest : List Nat}
    (h : decodeRecord (op0 :: a0 :: a1 :: a2 :: a3 :: b0 :: b1 :: b2 :: b3 :: tail)
      = .ok op key val rest) :
    key.length = leUint32 a0 a1 a2 a3 ∧ val.length = leUint32 b0 b1 b2 b3 ∧
      tail.length = key.length + val.length + 4 + rest.length := by
  rw [decodeRecord] at h
  dsimp only at h
  split at h
  · exact absurd h (by simp)
  · split at h
    · split at h
      · split at h
        · rename_i hkle hvle c0 c1 c2 c3 rest3 heq
          split at h
          · cases h
            have hlen := congrArg List.length heq
            simp only [List.length_drop, List.length_cons] at hlen
            refine ⟨?_, ?_, ?_⟩
            · rw [List.length_take]
              omega
            · rw [List.length_take, List.length_drop]
              omega
            · rw [List.length_take, List.length_take, List.length_drop]
              omega
          · exact absurd h (by simp)
        · exact absurd h (by simp)
      · exact absurd h (by simp)
    · exact absurd h (by simp)

theorem take_cons9 (e0 e1 e2 e3 e4 e5 e6 e7 e8 : Nat) (R : List Nat) (m : Nat) :
    (e0 :: e1 :: e2 :: e3 :: e4 :: e5 :: e6 :: e7 :: e8 :: R).take (m + 9)
      = e0 :: e1 :: e2 :: e3 :: e4 :: e5 :: e6 :: e7 :: e8 :: R.take m := rfl

theorem replay_cons9_take_nil (e0 x0 x1 x2 x3 y0 y1 y2 y3 : Nat)
    (key val crcb : List Nat) (m : Nat)
    (hx : leUint32 x0 x1 x2 x3 = key.length) (hy : leUint32 y0 y1 y2 y3 = val.length)
    (hcrcb : crcb.length = 4) (hm : m < key.length + val.length + 4) :
    replayRecords
      ((e0 :: x0 :: x1 :: x2 :: x3 :: y0 :: y1 :: y2 :: y3 ::
        (key ++ (val ++ crcb))).take (m + 9)) = [] := by
  rw [take_cons9]
  rcases hdec : decodeRecord (e0 :: x0 :: x1 :: x2 :: x3 :: y0 :: y1 :: y2 :: y3 ::
      ((key ++ (val ++ crcb)).take m)) with _ | _ | ⟨op1, k1, v1, r1⟩
  · exact replayRecords_eof hdec
  · exact replayRecords_corrupt hdec
  · exfalso
    obtain ⟨hka, hva, hta⟩ := decode_ok_anatomy hdec
    rw [hx] at hka
    rw [hy] at hva
    have hTlen : (key ++ (val ++ crcb)).length = key.length + val.length + 4 := by
      simp [List.length_append, hcrcb]
      omega
    have hm2 : ((key ++ (val ++ crcb)).take m).length = m := by
      rw [List.length_take]
      omega
    omega

theorem replay_take_rec (op : Nat) (key val : List Nat) (n : Nat)
    (hk2 : key.length ≤ maxKey) (hv2 : val.length ≤ maxVal)
    (hn : n < (appendRecord op key val).length) :
    replayRecords ((appendRecord op key val).take n) = [] := by
  have hkl : key.length < 4294967296 := by
    rw [maxKey_eq] at hk2
    omega
  have hvl : val.length < 4294967296 := by
    rw [maxVal_eq] at hv2
    omega
  rw [length_appendRecord] at hn
  by_cases h9 : n < 9
  · refine replayRecords_eof (decode_short_eof _ ?_)
    rw [List.length_take]
    omega
  · push_neg at h9
    obtain ⟨m, rfl⟩ : ∃ m, n = m + 9 := ⟨n - 9, by omega⟩
    rw [appendRecord_eq, putUint32_eq key.length, putUint32_eq val.length,
      putUint32_eq (crc32 _)]
    simp only [List.cons_append, List.nil_append, List.append_assoc]
    exact replay_cons9_take_nil _ _ _ _ _ _ _ _ _ key val _ m
      (leUint32_putUint32_eq key.length hkl) (leUint32_putUint32_eq val.length hvl)
      rfl (by omega)

theorem replay_rec_cons (r : RecSpec) (tail : List Nat) (hr : validRec r) :
    replayRecords (appendRecord r.op r.key r.val ++ tail)
      = (r.op, r.key, r.val) :: replayRecords tail := by
  obtain ⟨hop, hkb, hvb, hk1, hk2, hv2⟩ := hr
  exact replayRecords_ok (decode_encode r.op r.key r.val tail hop hkb hvb hk1 hk2 hv2)

theorem replay_recsBytes (rs : List RecSpec) (tail : List Nat) (h : validRecs rs) :
    replayRecords (recsBytes rs ++ tail) = recsOf rs ++ replayRecords tail := by
  induction rs with
  | nil => simp [recsBytes, recsOf]
  | cons r rs ih =>
    rw [recsBytes, recsOf, List.append_assoc,
      replay_rec_cons r _ (h r (List.mem_cons_self r rs)), List.cons_append,
      ih fun x hx => h x (List.mem_cons_of_mem r hx)]

theorem validRecs_map (ops : List KVOp) (h : validOps ops) : validRecs (ops.map opRec) := by
  intro r hr
  rw [List.mem_map] at hr
  obtain ⟨o, ho, rfl⟩ := hr
  exact h o ho

theorem applyEntry_opSet (t : Table) (k v : List Nat) : applyEntry t opSet k v = tset t k v := by
  simp [applyEntry]

theorem applyEntry_opDel (t : Table) (k v : List Nat) : applyEntry t opDel k v = tdel t k := by
  simp [applyEntry, opSet, opDel]

theorem foldl_apply_opRec (ops : List KVOp) (t : Table) :
    (recsOf (ops.map opRec)).foldl (fun t r => applyEntry t r.1 r.2.1 r.2.2) t
      = applyOps t ops := by
  induction ops generalizing t with
  | nil => rfl
  | cons o ops ih =>
    cases o with
    | set k v =>
      rw [List.map_cons,
        show recsOf (opRec (KVOp.set k v) :: List.map opRec ops)
          = (opSet, k, v) :: recsOf (List.map opRec ops) from rfl,
        List.foldl_cons]
      dsimp only
      rw [applyEntry_opSet]
      exact ih (tset t k v)
    | del k =>
      rw [List.map_cons,
        show recsOf (opRec (KVOp.del k) :: List.map opRec ops)
          = (opDel, k, []) :: recsOf (List.map opRec ops) from rfl,
        List.foldl_cons]
      dsimp only
      rw [applyEntry_opDel]
      exact ih (tdel t k)

theorem KV_Set_ok (kv : KVState) (k v : List Nat) :
    KV.Set kv k v none false
      = (⟨kv.log ++ AppendSET k v, tset kv.mem k v, kv.fsyncEvery⟩, false) := by
  simp [KV.Set]

theorem KV_Del_ok (kv : KVState) (k : List Nat) :
    KV.Del kv k none false
      = (⟨kv.log ++ AppendDEL k, tdel kv.mem k, kv.fsyncEvery⟩, false) := by
  simp [KV.Del]

theorem runOps_cons_set (kv : KVState) (k v : List Nat) (ops : List KVOp) :
    runOps kv (.set k v :: ops) = runOps (KV.Set kv k v none false).1 ops := rfl

theorem runOps_cons_del (kv : KVState) (k : List Nat) (ops : List KVOp) :
    runOps kv (.del k :: ops) = runOps (KV.Del kv k none false).1 ops := rfl

theorem runOps_state (kv : KVState) (ops : List KVOp) :
    runOps kv ops
      = ⟨kv.log ++ recsBytes (ops.map opRec), applyOps kv.mem ops, kv.fsyncEvery⟩ := by
  induction ops generalizing kv with
  | nil => simp [runOps, recsBytes, applyOps]
  | cons o ops ih =>
    cases o with
    | set k v =>
      rw [runOps_cons_set, KV_Set_ok, ih]
      simp [recsBytes, opRec, applyOps, AppendSET, List.append_assoc]
    | del k =>
      rw [runOps_cons_del, KV_Del_ok, ih]
      simp [recsBytes, opRec, applyOps, AppendDEL, List.append_assoc]

theorem openKV_valid (rs : List RecSpec) (extra : List Nat) (h : validRecs rs)
    (hextra : replayRecords extra = []) :
    openKV (recsBytes rs ++ extra)
      = (recsOf rs).foldl (fun t r => applyEntry t r.1 r.2.1 r.2.2) [] := by
  unfold openKV
  rw [replay_recsBytes rs extra h, hextra, List.append_nil]

theorem decode_badlen_corrupt (op a0 a1 a2 a3 b0 b1 b2 b3 : Nat) (tail : List Nat)
    (hbad : leUint32 a0 a1 a2 a3 = 0 ∨ leUint32 a0 a1 a2 a3 > maxKey
      ∨ leUint32 b0 b1 b2 b3 > maxVal) :
    decodeRecord (op :: a0 :: a1 :: a2 :: a3 :: b0 :: b1 :: b2 :: b3 :: tail) = .corrupt := by
  rw [decodeRecord]
  dsimp only
  rw [if_pos hbad]

theorem decode_emptykey_corrupt (op : Nat) (v tail : List Nat) :
    decodeRecord (appendRecord op [] v ++ tail) = .corrupt := by
  rw [appendRecord_eq]
  simp only [List.length_nil, putUint32_eq v.length, putUint32_eq (crc32 _)]
  rw [show putUint32 0 = [0, 0, 0, 0] from rfl]
  simp only [List.cons_append, List.nil_append, List.append_assoc]
  exact decode_badlen_corrupt _ _ _ _ _ _ _ _ _ _ (Or.inl rfl)

theorem flipBit_cons_zero (a : Nat) (l : List Nat) (j : Nat) :
    flipBit (a :: l) 0 j = (a ^^^ 2 ^ j) :: l := by
  simp [flipBit]

theorem flipBit_cons9 (e0 e1 e2 e3 e4 e5 e6 e7 e8 : Nat) (R : List Nat) (p j : Nat) :
    flipBit (e0 :: e1 :: e2 :: e3 :: e4 :: e5 :: e6 :: e7 :: e8 :: R) (p + 9) j
      = e0 :: e1 :: e2 :: e3 :: e4 :: e5 :: e6 :: e7 :: e8 :: flipBit R p j := rfl

theorem flipBit_append_left (l₁ l₂ : List Nat) (i j : Nat) (h : i < l₁.length) :
    flipBit (l₁ ++ l₂) i j = flipBit l₁ i j ++ l₂ := by
  unfold flipBit
  rw [List.set_append_left _ _ h, List.getD_append _ _ _ _ h]

theorem flipBit_length (l : List Nat) (i j : Nat) : (flipBit l i j).length = l.length :=
  List.length_set l i _

theorem decode_flip_op_corrupt (op : Nat) (key val S : List Nat) (j : Nat)
    (hop : op < 256) (hkb : ∀ b ∈ key, b < 256) (hvb : ∀ b ∈ val, b < 256)
    (hk1 : 1 ≤ key.length) (hk2 : key.length ≤ maxKey) (hv2 : val.length ≤ maxVal)
    (hj : j < 32) :
    decodeRecord (flipBit (appendRecord op key val ++ S) 0 j) = .corrupt := by
  have hkl : key.length < 4294967296 := by
    rw [maxKey_eq] at hk2
    omega
  have hvl : val.length < 4294967296 := by
    rw [maxVal_eq] at hv2
    omega
  have hdata : ∀ b ∈ [op] ++ putUint32 key.length ++ putUint32 val.length ++ key ++ val,
      b < 256 := by
    intro b hb
    simp only [List.append_assoc, List.mem_append, List.mem_singleton] at hb
    rcases hb with h | h | h | h | h
    · omega
    · exact putUint32_bytes _ b h
    · exact putUint32_bytes _ b h
    · exact hkb b h
    · exact hvb b h
  have hcrc := crc32_lt _ hdata
  have hne := crc32_flip_ne
    (op :: key.length % 256 :: key.length / 256 % 256 :: key.length / 65536 % 256 ::
      key.length / 16777216 % 256 :: val.length % 256 :: val.length / 256 % 256 ::
      val.length / 65536 % 256 :: val.length / 16777216 % 256 :: (key ++ val))
    0 j (by simp) hj
  simp only [List.getD_cons_zero, List.set_cons_zero] at hne
  rw [appendRecord_eq, putUint32_eq key.length, putUint32_eq val.length,
    putUint32_eq (crc32 _)]
  simp only [List.cons_append, List.nil_append, List.append_assoc]
  rw [flipBit_cons_zero]
  rw [decodeRecord]
  rw [leUint32_putUint32_eq key.length hkl, leUint32_putUint32_eq val.length hvl]
  rw [if_neg (by push_neg; omega)]
  rw [if_pos (by simp)]
  rw [List.take_left, List.drop_left]
  rw [if_pos (by simp)]
  rw [List.take_left, List.drop_left]
  dsimp only
  simp only [List.cons_append, List.nil_append, List.append_assoc, putUint32_eq] at hcrc ⊢
  rw [leUint32_putUint32_eq (crc32 _) hcrc]
  rw [if_neg hne]

theorem decode_flip_body_core (e0 x0 x1 x2 x3 y0 y1 y2 y3 : Nat) (key val S : List Nat)
    (p j : Nat)
    (hx : leUint32 x0 x1 x2 x3 = key.length) (hy : leUint32 y0 y1 y2 y3 = val.length)
    (hk1 : 1 ≤ key.length) (hk2 : key.length ≤ maxKey) (hv2 : val.length ≤ maxVal)
    (hC : crc32 (e0 :: x0 :: x1 :: x2 :: x3 :: y0 :: y1 :: y2 :: y3 :: (key ++ val))
      < 2 ^ 32)
    (hp : p < key.length + val.length) (hj : j < 32) :
    decodeRecord (flipBit (e0 :: x0 :: x1 :: x2 :: x3 :: y0 :: y1 :: y2 :: y3 ::
      ((key ++ val) ++ (putUint32 (crc32 (e0 :: x0 :: x1 :: x2 :: x3 :: y0 :: y1 :: y2 :: y3 ::
        (key ++ val))) ++ S))) (p + 9) j) = .corrupt := by
  have hpB : p < (key ++ val).length := by
    rw [List.length_append]
    omega
  have hne : crc32 (e0 :: x0 :: x1 :: x2 :: x3 :: y0 :: y1 :: y2 :: y3 ::
        flipBit (key ++ val) p j)
      ≠ crc32 (e0 :: x0 :: x1 :: x2 :: x3 :: y0 :: y1 :: y2 :: y3 :: (key ++ val)) := by
    have h1 : crc32 (flipBit (e0 :: x0 :: x1 :: x2 :: x3 :: y0 :: y1 :: y2 :: y3 ::
          (key ++ val)) (p + 9) j)
        ≠ crc32 (e0 :: x0 :: x1 :: x2 :: x3 :: y0 :: y1 :: y2 :: y3 :: (key ++ val)) :=
      crc32_flip_ne _ (p + 9) j (by simp [List.length_append]; omega) hj
    rwa [flipBit_cons9] at h1
  rw [flipBit_cons9, flipBit_append_left _ _ p j hpB]
  rw [decodeRecord]
  dsimp only
  rw [hx, hy]
  have hB : (flipBit (key ++ val) p j).length = key.length + val.length := by
    rw [flipBit_length, List.length_append]
  rw [if_neg (by push_neg; omega)]
  rw [if_pos (by simp only [List.length_append, hB]; omega)]
  rw [List.take_append_of_le_length (by omega : key.length ≤ (flipBit (key ++ val) p j).length)]
  rw [List.drop_append_of_le_length (by omega : key.length ≤ (flipBit (key ++ val) p j).length)]
  have hdl : ((flipBit (key ++ val) p j).drop key.length).length = val.length := by
    rw [List.length_drop, hB]
    omega
  rw [if_pos (by simp only [List.length_append, hdl]; omega)]
  rw [List.take_append_of_le_length (by omega : val.length ≤ ((flipBit (key ++ val) p j).drop key.length).length)]
  rw [List.take_of_length_le (by omega : ((flipBit (key ++ val) p j).drop key.length).length ≤ val.length)]
  rw [List.drop_append_of_le_length (by omega : val.length ≤ ((flipBit (key ++ val) p j).drop key.length).length)]
  rw [List.drop_eq_nil_of_le (by omega : ((flipBit (key ++ val) p j).drop key.length).length ≤ val.length)]
  rw [List.nil_append, putUint32_eq]
  simp only [List.cons_append, List.nil_append]
  rw [leUint32_putUint32_eq _ (by norm_num at hC ⊢; exact hC)]
  rw [if_neg ?hgot]
  case hgot =>
    rw [List.take_append_drop]
    exact hne

set_option maxHeartbeats 1000000 in
theorem decode_flip_body_corrupt (op : Nat) (key val S : List Nat) (p j : Nat)
    (hop : op < 256) (hkb : ∀ b ∈ key, b < 256) (hvb : ∀ b ∈ val, b < 256)
    (hk1 : 1 ≤ key.length) (hk2 : key.length ≤ maxKey) (hv2 : val.length ≤ maxVal)
    (hp : p < key.length + val.length) (hj : j < 32) :
    decodeRecord (flipBit (appendRecord op key val ++ S) (p + 9) j) = .corrupt := by
  have hkl : key.length < 4294967296 := by
    rw [maxKey_eq] at hk2
    omega
  have hvl : val.length < 4294967296 := by
    rw [maxVal_eq] at hv2
    omega
  have hdata : ∀ b ∈ [op] ++ putUint32 key.length ++ putUint32 val.length ++ key ++ val,
      b < 256 := by
    intro b hb
    simp only [List.append_assoc, List.mem_append, List.mem_singleton] at hb
    rcases hb with h | h | h | h | h
    · omega
    · exact putUint32_bytes _ b h
    · exact putUint32_bytes _ b h
    · exact hkb b h
    · exact hvb b h
  have hcrc := crc32_lt _ hdata
  rw [appendRecord_eq, putUint32_eq key.length, putUint32_eq val.length]
  simp only [putUint32_eq, List.cons_append, List.nil_append, List.append_assoc] at hcrc
  simp only [List.cons_append, List.nil_append, List.append_assoc]
  rw [← List.append_assoc key val]
  exact decode_flip_body_core _ _ _ _ _ _ _ _ _ key val S p j
    (leUint32_putUint32_eq key.length hkl) (leUint32_putUint32_eq val.length hvl)
    hk1 hk2 hv2 hcrc hp hj

theorem recsBytes_append (rs1 rs2 : List RecSpec) :
    recsBytes (rs1 ++ rs2) = recsBytes rs1 ++ recsBytes rs2 := by
  induction rs1 with
  | nil => simp [recsBytes]
  | cons r rs ih => simp [recsBytes, ih]

theorem flipBit_append_right (l₁ l₂ : List Nat) (i j : Nat) :
    flipBit (l₁ ++ l₂) (l₁.length + i) j = l₁ ++ flipBit l₂ i j := by
  unfold flipBit
  rw [List.set_append_right _ _ (by omega), List.getD_append_right _ _ _ _ (by omega)]
  simp

/-- C6 (amended): for a well-formed log and a single bit flip within one
record's op byte, key bytes or value bytes (the two length fields of the
header are excluded), replay applies exactly the records before the flipped
record and stops there: the reframed reads still cover the same byte ranges,
and the recomputed CRC32 differs from the stored one because the CRC step is
GF(2)-linear and injective on 32-bit states, so a single-bit difference in
the covered data can never cancel. -/
theorem C6_flip_in_data_stops_replay (pre : List RecSpec) (r : RecSpec) (post : List RecSpec)
    (i j : Nat) (hpre : validRecs pre) (hr : validRec r)
    (hi : i = 0 ∨ 9 ≤ i ∧ i < 9 + r.key.length + r.val.length) (hj : j < 8) :
    replayRecords (flipBit (recsBytes (pre ++ r :: post)) ((recsBytes pre).length + i) j)
      = recsOf pre := by
  obtain ⟨hop, hkb, hvb, hk1, hk2, hv2⟩ := hr
  rw [recsBytes_append, show recsBytes (r :: post) = appendRecord r.op r.key r.val ++ recsBytes post from rfl]
  rw [flipBit_append_right]
  rw [replay_recsBytes pre _ hpre]
  rcases hi with rfl | ⟨h9, hlt⟩
  · rw [replayRecords_corrupt
      (decode_flip_op_corrupt r.op r.key r.val (recsBytes post) j hop hkb hvb hk1 hk2 hv2
        (by omega))]
    simp
  · obtain ⟨p, rfl⟩ : ∃ p, i = p + 9 := ⟨i - 9, by omega⟩
    rw [replayRecords_corrupt
      (decode_flip_body_corrupt r.op r.key r.val (recsBytes post) p j hop hkb hvb hk1 hk2 hv2
        (by omega) (by omega))]
    simp

/-! ### Claims -/

/-- C1 (amended): for every sequence of successful `Set`/`Del` calls against a
freshly opened store whose keys are 1..2^20 bytes and whose values are at
most 64·2^20 bytes, reopening the store by replaying the produced log yields
exactly the table obtained by applying the operations, in order, to an empty
map.  (The size hypotheses are forced by the counterexample: the write path
accepts an empty key but the replayer rejects it, see `C1_counterexample`.) -/
theorem C1_crash_consistency (fe : Nat) (ops : List KVOp) (h : validOps ops) :
    openKV (runOps (freshKV fe) ops).log = applyOps [] ops := by
  rw [runOps_state]
  dsimp only
  rw [show (freshKV fe).log = [] from rfl, List.nil_append]
  have h2 := openKV_valid (ops.map opRec) [] (validRecs_map ops h) replayRecords_nil
  rw [List.append_nil] at h2
  rw [h2, foldl_apply_opRec]

set_option maxRecDepth 40000 in
/-- C1 counterexample: a single successful `Set` with an empty key (the write
path accepts it) produces a log whose replay recovers nothing, so the
reopened table differs from the map obtained by applying the operation. -/
theorem C1_counterexample :
    (KV.Set (freshKV 0) [] [118] none false).2 = false
    ∧ openKV ((runOps (freshKV 0) [KVOp.set [] [118]]).log)
        ≠ applyOps [] [KVOp.set [] [118]] := by
  decide

/-- C1 witness: the amended claim at a concrete three-operation history. -/
theorem C1_witness :
    validOps [KVOp.set [107] [118], KVOp.set [108] [50, 50], KVOp.del [107]]
    ∧ openKV (runOps (freshKV 1)
          [KVOp.set [107] [118], KVOp.set [108] [50, 50], KVOp.del [107]]).log
        = applyOps [] [KVOp.set [107] [118], KVOp.set [108] [50, 50], KVOp.del [107]] :=
  ⟨by decide, C1_crash_consistency 1 _ (by decide)⟩

/-- C2: for both ops, any key of 1..2^20 bytes and any value of at most
64·2^20 bytes (empty for DEL), decoding the encoded record yields back
exactly the op, key and value — not end-of-stream and not corruption — and
consumes the whole byte string. -/
theorem C2_roundtrip (op : Nat) (key val : List Nat)
    (hop : op = opSet ∨ op = opDel) (hdel : op = opDel → val = [])
    (hkb : ∀ b ∈ key, b < 256) (hvb : ∀ b ∈ val, b < 256)
    (hk1 : 1 ≤ key.length) (hk2 : key.length ≤ maxKey) (hv2 : val.length ≤ maxVal) :
    decodeRecord (appendRecord op key val) = .ok op key val [] := by
  have h := decode_encode op key val [] (by rcases hop with rfl | rfl <;> norm_num [opSet, opDel])
    hkb hvb hk1 hk2 hv2
  rwa [List.append_nil] at h

/-- C2 witness: round trip of a concrete SET record. -/
theorem C2_witness :
    ((opSet : Nat) = opSet ∨ (opSet : Nat) = opDel)
    ∧ decodeRecord (appendRecord opSet [107] [118, 119]) = .ok opSet [107] [118, 119] [] :=
  ⟨Or.inl rfl,
    C2_roundtrip opSet [107] [118, 119] (Or.inl rfl) (by decide) (by decide) (by decide)
      (by decide) (by decide) (by decide)⟩

set_option maxRecDepth 40000 in
/-- C3 counterexample: under strict durability (`fsyncEvery = 1`), a `Set`
whose append succeeds but whose `Sync` fails returns an error, yet the fully
appended record stays in the log, so a later reopen replays it and the
"failed" operation's effect is visible. -/
theorem C3_counterexample :
    (KV.Set (freshKV 1) [107] [118] none true).2 = true
    ∧ openKV ((KV.Set (freshKV 1) [107] [118] none true).1.log) = [([107], [118])]
    ∧ openKV ((KV.Set (freshKV 1) [107] [118] none true).1.log)
        ≠ openKV ((freshKV 1).log) := by
  decide

/-- C3 (amended): whenever `Set`/`Del` returns an error the in-memory table
is untouched; if the error came from the WAL append itself — which leaves at
most a strict prefix of the record in the file — a later reopen replays the
log to the same table as before the call; but if the append succeeded and
only the `Sync` step failed (possible only under `fsyncEvery = 1`), the full
record remains in the log (and a later reopen will apply it, see
`C3_counterexample`). -/
theorem C3_failed_ops (ops : List KVOp) (fe : Nat) (k v : List Nat) (ns nd : Nat) (b : Bool)
    (hops : validOps ops) (hk2 : k.length ≤ maxKey) (hv2 : v.length ≤ maxVal)
    (hns : ns < (AppendSET k v).length) (hnd : nd < (AppendDEL k).length) :
    ((KV.Set (runOps (freshKV fe) ops) k v (some ns) b).2 = true
      ∧ (KV.Set (runOps (freshKV fe) ops) k v (some ns) b).1.mem
          = (runOps (freshKV fe) ops).mem
      ∧ openKV (KV.Set (runOps (freshKV fe) ops) k v (some ns) b).1.log
          = openKV (runOps (freshKV fe) ops).log)
    ∧ ((KV.Del (runOps (freshKV fe) ops) k (some nd) b).2 = true
      ∧ (KV.Del (runOps (freshKV fe) ops) k (some nd) b).1.mem
          = (runOps (freshKV fe) ops).mem
      ∧ openKV (KV.Del (runOps (freshKV fe) ops) k (some nd) b).1.log
          = openKV (runOps (freshKV fe) ops).log)
    ∧ (fe = 1 →
      (KV.Set (runOps (freshKV fe) ops) k v none true).2 = true
      ∧ (KV.Set (runOps (freshKV fe) ops) k v none true).1.mem
          = (runOps (freshKV fe) ops).mem
      ∧ (KV.Set (runOps (freshKV fe) ops) k v none true).1.log
          = (runOps (freshKV fe) ops).log ++ AppendSET k v
      ∧ (KV.Del (runOps (freshKV fe) ops) k none true).2 = true
      ∧ (KV.Del (runOps (freshKV fe) ops) k none true).1.mem
          = (runOps (freshKV fe) ops).mem
      ∧ (KV.Del (runOps (freshKV fe) ops) k none true).1.log
          = (runOps (freshKV fe) ops).log ++ AppendDEL k) := by
  have hlog : (runOps (freshKV fe) ops).log = recsBytes (ops.map opRec) := by
    rw [runOps_state]
    simp [freshKV]
  have hopen : ∀ extra : List Nat, replayRecords extra = [] →
      openKV ((runOps (freshKV fe) ops).log ++ extra) = openKV (runOps (freshKV fe) ops).log := by
    intro extra hextra
    have h1 := openKV_valid (ops.map opRec) extra (validRecs_map ops hops) hextra
    have h2 := openKV_valid (ops.map opRec) [] (validRecs_map ops hops) replayRecords_nil
    rw [List.append_nil] at h2
    rw [hlog, h1, h2]
  refine ⟨⟨rfl, rfl, ?_⟩, ⟨rfl, rfl, ?_⟩, ?_⟩
  · exact hopen _ (replay_take_rec opSet k v ns hk2 hv2 hns)
  · exact hopen _ (replay_take_rec opDel k [] nd hk2 (by simp [maxVal_eq]) hnd)
  · intro hfe
    subst hfe
    refine ⟨?_, ?_, ?_, ?_, ?_, ?_⟩ <;>
      simp [KV.Set, KV.Del, runOps_state, AppendSET, AppendDEL, freshKV]

/-- C3 witness: the amended claim at a concrete input (empty history,
`fsyncEvery = 1`, a `Set` append that failed with 15 bytes — header, key and
one value byte — already in the file, a `Del` append that failed before
writing any byte, and a sync failure after a complete append). -/
theorem C3_witness :
    validOps ([] : List KVOp)
    ∧ 15 < (AppendSET [107] [118, 119]).length
    ∧ (KV.Set (runOps (freshKV 1) []) [107] [118, 119] (some 15) false).2 = true
    ∧ openKV (KV.Set (runOps (freshKV 1) []) [107] [118, 119] (some 15) false).1.log
        = openKV (runOps (freshKV 1) []).log
    ∧ openKV (KV.Del (runOps (freshKV 1) []) [107] (some 0) false).1.log
        = openKV (runOps (freshKV 1) []).log
    ∧ (KV.Set (runOps (freshKV 1) []) [107] [118, 119] none true).1.log
        = (runOps (freshKV 1) []).log ++ AppendSET [107] [118, 119] :=
  ⟨by decide, by decide,
    (C3_failed_ops [] 1 [107] [118, 119] 15 0 false (by decide) (by decide) (by decide)
      (by decide) (by decide)).1.1,
    (C3_failed_ops [] 1 [107] [118, 119] 15 0 false (by decide) (by decide) (by decide)
      (by decide) (by decide)).1.2.2,
    (C3_failed_ops [] 1 [107] [118, 119] 15 0 false (by decide) (by decide) (by decide)
      (by decide) (by decide)).2.1.2.2,
    ((C3_failed_ops [] 1 [107] [118, 119] 15 0 false (by decide) (by decide) (by decide)
      (by decide) (by decide)).2.2 rfl).2.2.1⟩

/-- C4: truncating a well-formed log at any byte offset strictly inside its
last record makes replay apply exactly the records before that record and
stop, ignoring the truncated tail (the embedded replay has no error
outcome on byte lists, so nothing is reported). -/
theorem C4_torn_tail (init : List RecSpec) (r : RecSpec) (c : Nat)
    (hinit : validRecs init) (hr : validRec r) (hc1 : 0 < c)
    (hc2 : c < (appendRecord r.op r.key r.val).length) :
    replayRecords ((recsBytes (init ++ [r])).take ((recsBytes init).length + c))
      = recsOf init := by
  rw [recsBytes_append, List.take_append c]
  rw [show recsBytes [r] = appendRecord r.op r.key r.val ++ recsBytes [] from rfl,
    show recsBytes [] = [] from rfl, List.append_nil]
  rw [replay_recsBytes init _ hinit,
    replay_take_rec r.op r.key r.val c hr.2.2.2.2.1 hr.2.2.2.2.2 hc2, List.append_nil]

set_option maxRecDepth 40000 in
/-- C4 witness: two records, the second truncated 5 bytes in — only the
first record is recovered. -/
theorem C4_witness :
    validRecs [RecSpec.mk 1 [107] [118]] ∧ validRec (RecSpec.mk 2 [108] [])
    ∧ replayRecords ((recsBytes [RecSpec.mk 1 [107] [118], RecSpec.mk 2 [108] []]).take
        ((recsBytes [RecSpec.mk 1 [107] [118]]).length + 5))
      = recsOf [RecSpec.mk 1 [107] [118]] :=
  ⟨by decide, by decide,
    C4_torn_tail [RecSpec.mk 1 [107] [118]] (RecSpec.mk 2 [108] []) 5 (by decide) (by decide)
      (by decide) (by decide)⟩

/-- C5: when the WAL append inside `Set` fails, `Set` returns the error and
the in-memory table is exactly what it was before the call (so in particular
the entry for the key is unchanged). -/
theorem C5_append_fail_table_untouched (kv : KVState) (k v : List Nat) (n : Nat) (b : Bool) :
    (KV.Set kv k v (some n) b).2 = true ∧ (KV.Set kv k v (some n) b).1.mem = kv.mem := by
  simp [KV.Set]

set_option maxRecDepth 40000 in
/-- C6 counterexample: in the well-formed one-record log whose SET record has
key `[107]` and whose 4-byte value was chosen to equal the little-endian CRC
of the reframed record, flipping bit 2 of byte 5 (the low byte of the value
length, inside the header) turns `valLen` from 4 into 0; replay then reads
the old value bytes as the checksum, which matches, and applies a corrupted
record `(SET, [107], [])` instead of stopping — so a single bit flip in the
header does not always stop replay. -/
theorem C6_counterexample :
    validRec (RecSpec.mk 1 [107] (putUint32 (crc32 [1, 1, 0, 0, 0, 0, 0, 0, 0, 107])))
    ∧ replayRecords (flipBit
        (recsBytes [RecSpec.mk 1 [107] (putUint32 (crc32 [1, 1, 0, 0, 0, 0, 0, 0, 0, 107]))])
        5 2)
      = [(1, [107], [])]
    ∧ [((1 : Nat), ([107], ([] : List Nat)))] ≠ ([] : List (Nat × List Nat × List Nat)) := by
  decide

/-- C6 witness: the amended claim at a concrete input — flipping bit 3 of the
first key byte of the first of two records makes replay recover nothing. -/
theorem C6_witness :
    validRec (RecSpec.mk 1 [107] [118])
    ∧ replayRecords (flipBit
        (recsBytes ([] ++ RecSpec.mk 1 [107] [118] :: [RecSpec.mk 2 [107] []]))
        ((recsBytes []).length + 9) 3)
      = recsOf [] :=
  ⟨by decide,
    C6_flip_in_data_stops_replay [] (RecSpec.mk 1 [107] [118]) [RecSpec.mk 2 [107] []] 9 3
      (by decide) (by decide) (Or.inr (by decide)) (by decide)⟩

/-- C7: once a full 9-byte header is read, a declared `keyLen` of zero, a
`keyLen` over 2^20, or a `valLen` over 64·2^20 makes the decoder signal
corruption no matter what bytes follow the header (nothing further is
consumed), and a replay that reaches such a header after valid records stops
there, keeping the valid prefix and reporting no error. -/
theorem C7_bad_length_corrupt (op a0 a1 a2 a3 b0 b1 b2 b3 : Nat) (rs : List RecSpec)
    (hrs : validRecs rs)
    (hbad : leUint32 a0 a1 a2 a3 = 0 ∨ leUint32 a0 a1 a2 a3 > maxKey
      ∨ leUint32 b0 b1 b2 b3 > maxVal) :
    (∀ tail, decodeRecord (op :: a0 :: a1 :: a2 :: a3 :: b0 :: b1 :: b2 :: b3 :: tail)
      = .corrupt)
    ∧ ∀ tail, replayRecords (recsBytes rs
        ++ (op :: a0 :: a1 :: a2 :: a3 :: b0 :: b1 :: b2 :: b3 :: tail)) = recsOf rs := by
  constructor
  · intro tail
    exact decode_badlen_corrupt op a0 a1 a2 a3 b0 b1 b2 b3 tail hbad
  · intro tail
    rw [replay_recsBytes rs _ hrs,
      replayRecords_corrupt (decode_badlen_corrupt op a0 a1 a2 a3 b0 b1 b2 b3 tail hbad)]
    simp

/-- C7 witness: a zero `keyLen` header following one valid record. -/
theorem C7_witness :
    (leUint32 0 0 0 0 = 0 ∨ leUint32 0 0 0 0 > maxKey ∨ leUint32 9 9 9 9 > maxVal)
    ∧ decodeRecord [1, 0, 0, 0, 0, 9, 9, 9, 9] = .corrupt
    ∧ replayRecords (recsBytes [RecSpec.mk 1 [107] [118]]
        ++ [1, 0, 0, 0, 0, 9, 9, 9, 9]) = recsOf [RecSpec.mk 1 [107] [118]] :=
  ⟨Or.inl rfl,
    (C7_bad_length_corrupt 1 0 0 0 0 9 9 9 9 [] (by decide) (Or.inl rfl)).1 [],
    (C7_bad_length_corrupt 1 0 0 0 0 9 9 9 9 [RecSpec.mk 1 [107] [118]] (by decide)
      (Or.inl rfl)).2 []⟩

/-- The byte layout stated by the spec (§4.1 `Encode` and the §6 record
table): one op byte, 4-byte little-endian key length, 4-byte little-endian
value length (0 for DEL), the key bytes, the value bytes, then the 4-byte
little-endian IEEE CRC32 over op‖keyLen‖valLen‖key‖value.  Written from the
spec's words, to be compared with the source-derived `appendRecord`. -/
def specEncode (op : Nat) (key val : List Nat) : List Nat :=
  [op] ++ putUint32 key.length ++ putUint32 val.length ++ key ++ val
    ++ putUint32 (crc32 ([op] ++ putUint32 key.length ++ putUint32 val.length ++ key ++ val))

/-- C8: the op-code constants are 1 (SET) and 2 (DEL), and for every op, key
and value the bytes produced by the writer's `appendRecord` are exactly the
layout the spec states (`specEncode`). -/
theorem C8_encode_layout :
    opSet = 1 ∧ opDel = 2 ∧
      ∀ (op : Nat) (key val : List Nat), appendRecord op key val = specEncode op key val := by
  refine ⟨rfl, rfl, fun op key val => ?_⟩
  rw [appendRecord_eq, specEncode]

/-- C9: a `Set` with an empty key succeeds on the write path — the record is
appended with `keyLen = 0` and the value is installed in the table — but the
replayer classifies `keyLen = 0` as corruption and halts there, so a reopen
recovers neither that record nor anything logged after it. -/
theorem C9_empty_key (kv : KVState) (v : List Nat) (rs : List RecSpec) (tail : List Nat)
    (hrs : validRecs rs) :
    (KV.Set kv [] v none false).2 = false
    ∧ (KV.Set kv [] v none false).1.log = kv.log ++ appendRecord opSet [] v
    ∧ (KV.Set kv [] v none false).1.mem = tset kv.mem [] v
    ∧ replayRecords (recsBytes rs ++ (appendRecord opSet [] v ++ tail)) = recsOf rs := by
  refine ⟨by simp [KV.Set], by simp [KV.Set, AppendSET], by simp [KV.Set], ?_⟩
  rw [replay_recsBytes rs _ hrs,
    replayRecords_corrupt (decode_emptykey_corrupt opSet v tail)]
  simp

set_option maxRecDepth 40000 in
/-- C9 witness: an empty-key `Set` after one valid record, followed by one
more valid record in the log — replay recovers only the first record. -/
theorem C9_witness :
    validRecs [RecSpec.mk 1 [107] [118]]
    ∧ (KV.Set (freshKV 0) [] [119] none false).2 = false
    ∧ replayRecords (recsBytes [RecSpec.mk 1 [107] [118]]
        ++ (appendRecord opSet [] [119] ++ appendRecord 1 [108] [120]))
      = recsOf [RecSpec.mk 1 [107] [118]] :=
  ⟨by decide,
    (C9_empty_key (freshKV 0) [119] [] [] (by decide)).1,
    (C9_empty_key (freshKV 0) [119] [RecSpec.mk 1 [107] [118]]
      (appendRecord 1 [108] [120]) (by decide)).2.2.2⟩

/-- C10: a complete, checksum-valid record whose op byte is neither 1 nor 2
does not stop replay and raises no error: it is decoded, handed to the apply
callback — whose `switch` has no case for it, leaving the table unchanged —
and every subsequent valid record is still applied. -/
theorem C10_unknown_op (op : Nat) (key val rest : List Nat)
    (hop : op < 256) (hop1 : op ≠ opSet) (hop2 : op ≠ opDel)
    (hkb : ∀ b ∈ key, b < 256) (hvb : ∀ b ∈ val, b < 256)
    (hk1 : 1 ≤ key.length) (hk2 : key.length ≤ maxKey) (hv2 : val.length ≤ maxVal) :
    replayRecords (appendRecord op key val ++ rest) = (op, key, val) :: replayRecords rest
    ∧ (∀ t : Table, applyEntry t op key val = t)
    ∧ openKV (appendRecord op key val ++ rest) = openKV rest := by
  have hstep := replayRecords_ok (decode_encode op key val rest hop hkb hvb hk1 hk2 hv2)
  have hnoop : ∀ t : Table, applyEntry t op key val = t := by
    intro t
    rw [applyEntry, if_neg hop1, if_neg hop2]
  refine ⟨hstep, hnoop, ?_⟩
  unfold openKV
  rw [hstep, List.foldl_cons]
  dsimp only
  rw [hnoop]

set_option maxRecDepth 40000 in
/-- C10 witness: op byte 3 before a valid SET record — the unknown-op record
is decoded but ignored, and the following record still reaches the table. -/
theorem C10_witness :
    replayRecords (appendRecord 3 [107] [] ++ appendRecord 1 [108] [121])
      = (3, [107], []) :: replayRecords (appendRecord 1 [108] [121])
    ∧ applyEntry [([109], [50])] 3 [107] [] = [([109], [50])]
    ∧ openKV (appendRecord 3 [107] [] ++ appendRecord 1 [108] [121])
        = openKV (appendRecord 1 [108] [121]) :=
  ⟨(C10_unknown_op 3 [107] [] (appendRecord 1 [108] [121]) (by decide) (by decide) (by decide)
      (by decide) (by decide) (by decide) (by decide) (by decide)).1,
    (C10_unknown_op 3 [107] [] (appendRecord 1 [108] [121]) (by decide) (by decide) (by decide)
      (by decide) (by decide) (by decide) (by decide) (by decide)).2.1 [([109], [50])],
    (C10_unknown_op 3 [107] [] (appendRecord 1 [108] [121]) (by decide) (by decide) (by decide)
      (by decide) (by decide) (by decide) (by decide) (by decide)).2.2⟩
